import Mathlib

/-!
Verification of the metapy parser binding module (`src/metapy_parser.cpp`)
and the parse-tree data model it exposes: node hierarchy, transform
visitors (binarizer, debinarizer, empty remover, unary chain remover),
the evalb bracket-scoring accumulator, and the bracketed-tree reader.

Only the binding layer is present in the repository source; the underlying
tree algorithms live in the MeTA library headers that the binding includes.
Where a definition embeds such missing code, its doc comment starts with
`Modelled from the spec:` and it follows the specification's wording.
-/

namespace Metapy

/-- The parse-tree node hierarchy: a `leaf` owns a category label and an
optional word token (absent for traces/empties); an `internal` node owns a
category label, a temporary flag (marking nodes introduced by
binarization) and an ordered list of children. -/
inductive Node where
  | leaf (category : String) (word : Option String)
  | internal (category : String) (temp : Bool) (children : List Node)

mutual
/-- Structural equality on nodes is decidable. -/
def decEqNode : (a b : Node) → Decidable (a = b)
  | .leaf c w, .leaf c' w' =>
    if h1 : c = c' then
      if h2 : w = w' then isTrue (by rw [h1, h2])
      else isFalse (by intro h; cases h; exact h2 rfl)
    else isFalse (by intro h; cases h; exact h1 rfl)
  | .leaf _ _, .internal _ _ _ => isFalse (by intro h; cases h)
  | .internal _ _ _, .leaf _ _ => isFalse (by intro h; cases h)
  | .internal c t cs, .internal c' t' cs' =>
    if h1 : c = c' then
      if h2 : t = t' then
        match decEqNodeList cs cs' with
        | isTrue h3 => isTrue (by rw [h1, h2, h3])
        | isFalse h3 => isFalse (by intro h; cases h; exact h3 rfl)
      else isFalse (by intro h; cases h; exact h2 rfl)
    else isFalse (by intro h; cases h; exact h1 rfl)

/-- Structural equality on child lists is decidable. -/
def decEqNodeList : (as bs : List Node) → Decidable (as = bs)
  | [], [] => isTrue rfl
  | [], _ :: _ => isFalse (by intro h; cases h)
  | _ :: _, [] => isFalse (by intro h; cases h)
  | a :: as, b :: bs =>
    match decEqNode a b with
    | isTrue h =>
      match decEqNodeList as bs with
      | isTrue h2 => isTrue (by rw [h, h2])
      | isFalse h2 => isFalse (by intro hh; injection hh; contradiction)
    | isFalse h => isFalse (by intro hh; injection hh; contradiction)
end

instance : DecidableEq Node := decEqNode

namespace Node

/-- `category()` accessor of the node hierarchy. -/
def category : Node → String
  | .leaf c _ => c
  | .internal c _ _ => c

/-- `is_leaf()` discriminant. -/
def is_leaf : Node → Bool
  | .leaf _ _ => true
  | .internal _ _ _ => false

/-- `is_temporary()`: only internal nodes introduced by binarization are
temporary. -/
def is_temporary : Node → Bool
  | .leaf _ _ => false
  | .internal _ t _ => t

/-- `num_children()` of an internal node (a leaf has none). -/
def num_children : Node → Nat
  | .leaf _ _ => 0
  | .internal _ _ cs => cs.length

end Node

/-- The defined "empty" sentinel word token returned for absent words. -/
def emptySentinel : String := ""

/-- Modelled from the spec (binding line 99-102 over the missing
`leaf_node::word`): `word()` returns the stored token, or the defined
"empty" sentinel when the word is absent. -/
def leafWord (w : Option String) : String :=
  w.getD emptySentinel

mutual
/-- A node (and its whole subtree) contains no temporary nodes. -/
def noTemp : Node → Bool
  | .leaf _ _ => true
  | .internal _ t cs => !t && noTempList cs

/-- Every node of the list contains no temporary nodes. -/
def noTempList : List Node → Bool
  | [] => true
  | x :: xs => noTemp x && noTempList xs
end

/-- The derived category label given to synthetic nodes introduced by
binarization (original category decorated to indicate synthetic status). -/
def tempLabel (c : String) : String := c ++ "*"

/-- Right-branching cascade of binary temporary nodes over the node `x`
followed by the nodes `ys` (used by the binarizer on the tail of a child
list of length greater than two). -/
def cascade (c : String) : Node → List Node → Node
  | x, [] => x
  | x, [y] => .internal (tempLabel c) true [x, y]
  | x, y :: z :: rest => .internal (tempLabel c) true [x, cascade c y (z :: rest)]

mutual
/-- Modelled from the spec (missing `visitors/binarizer.h`): converts an
n-ary internal node (n > 2) into a right-branching cascade of binary
internal nodes; newly introduced nodes are marked temporary and carry a
derived category label; nodes with at most two children pass through
unchanged aside from recursing into children. -/
def binarize : Node → Node
  | .leaf c w => .leaf c w
  | .internal c t cs =>
    match binarizeList cs with
    | x :: y :: z :: rest => .internal c t [x, cascade c y (z :: rest)]
    | l => .internal c t l

/-- Binarize every node of a child list. -/
def binarizeList : List Node → List Node
  | [] => []
  | x :: xs => binarize x :: binarizeList xs
end

mutual
/-- Modelled from the spec (missing `visitors/debinarizer.h`): any node
marked temporary is spliced out, promoting its children to be direct
children of its parent at the same position, recursively, until no
temporary nodes remain. -/
def debinarize : Node → Node
  | .leaf c w => .leaf c w
  | .internal c t cs => .internal c t (debinList cs)

/-- Debinarize a child list, splicing out temporary children. -/
def debinList : List Node → List Node
  | [] => []
  | .internal _ true cs :: rest => debinList cs ++ debinList rest
  | .leaf c w :: rest => .leaf c w :: debinList rest
  | .internal c false cs :: rest => debinarize (.internal c false cs) :: debinList rest
end

mutual
/-- Modelled from the spec (missing `visitors/empty_remover.h`): removes
leaf nodes whose word token is the defined "empty" sentinel and
recursively removes any internal node left with zero children as a
result, propagating upward; `none` means the whole subtree was removed. -/
def emptyRemover : Node → Option Node
  | .leaf c w => if leafWord w = emptySentinel then none else some (.leaf c w)
  | .internal c t cs =>
    match emptyRemoverList cs with
    | [] => none
    | cs' => some (.internal c t cs')

/-- Apply the empty remover to each node of a child list, dropping the
children that were removed entirely. -/
def emptyRemoverList : List Node → List Node
  | [] => []
  | x :: xs =>
    match emptyRemover x with
    | none => emptyRemoverList xs
    | some y => y :: emptyRemoverList xs
end

mutual
/-- Modelled from the spec (missing `visitors/unary_chain_remover.h`):
collapses a chain of internal nodes each having exactly one child into a
single node, keeping the topmost category label and discarding
intermediate labels, terminating the chain at the first node with a
number of children different from one, or at a leaf. -/
def unaryChainRemover : Node → Node
  | .leaf c w => .leaf c w
  | .internal c t cs => .internal c t (ucrChildren cs)

/-- Process the child list of a node: a sole child starts a chain chase,
otherwise each child is processed independently. -/
def ucrChildren : List Node → List Node
  | [] => []
  | [x] => [ucrChase x]
  | x :: y :: rest => unaryChainRemover x :: ucrList (y :: rest)

/-- Chase a unary chain downward from a node in sole-child position:
every intermediate internal node with exactly one child is discarded. -/
def ucrChase : Node → Node
  | .internal _ _ [y] => ucrChase y
  | .leaf c w => .leaf c w
  | .internal c t cs => .internal c t (ucrList cs)

/-- Apply the unary chain remover to every node of a list. -/
def ucrList : List Node → List Node
  | [] => []
  | x :: xs => unaryChainRemover x :: ucrList xs
end

/-- Error kinds of the tree core: structural errors (internal node with no
children), index errors (child index or tree index out of bounds) and
parse errors of the bracketed-notation reader. -/
inductive TreeError where
  | structuralError
  | indexError
  | parseError (position : Nat)
deriving Repr, DecidableEq

/-- Modelled from the spec (missing `internal_node.h` constructor, called
by the binding's `InternalNode.__init__`): construction from a category
and a child list fails with a structural error when the child list is
empty, and produces the node otherwise. -/
def mkInternalNode (cat : String) (children : List Node) : Except TreeError Node :=
  if children.isEmpty then .error .structuralError
  else .ok (.internal cat false children)

/-- Value-level `add_child` (binding line 115-119): the argument is
cloned, so the appended child is the value of `child`, placed at the
end. -/
def addChildValue (cat : String) (t : Bool) (children : List Node) (child : Node) : Node :=
  .internal cat t (children ++ [child])

mutual
/-- Number of leaves (terminal positions) under a node. -/
def leafCount : Node → Nat
  | .leaf _ _ => 1
  | .internal _ _ cs => leafCountList cs

/-- Number of leaves under a list of nodes. -/
def leafCountList : List Node → Nat
  | [] => 0
  | x :: xs => leafCount x + leafCountList xs
end

/-- A labeled bracket: category label with the half-open leaf-index span
covered by an internal node. -/
abbrev Bracket := String × Nat × Nat

mutual
/-- Brackets of the subtree rooted at a node whose leftmost leaf has
index `i`: one bracket per internal node. -/
def bracketsFrom : Node → Nat → List Bracket
  | .leaf _ _, _ => []
  | .internal c _ cs, i => (c, i, i + leafCountList cs) :: bracketsFromList cs i

/-- Brackets of a list of sibling subtrees starting at leaf index `i`. -/
def bracketsFromList : List Node → Nat → List Bracket
  | [], _ => []
  | x :: xs, i => bracketsFrom x i ++ bracketsFromList xs (i + leafCount x)
end

/-- The bracket multiset of a tree (every internal node contributes one
labeled bracket over its leaf span). -/
def brackets (t : Node) : List Bracket := bracketsFrom t 0

/-- Size of the multiset intersection of two bracket lists: label and
span must match exactly, counted by multiplicity. -/
def msInter : List Bracket → List Bracket → Nat
  | [], _ => 0
  | x :: xs, g => if x ∈ g then 1 + msInter xs (g.erase x) else msInter xs g

/-- Two spans cross when they partially overlap: neither nested nor
disjoint. -/
def spansCross (b1 b2 : Bracket) : Bool :=
  let i1 := b1.2.1; let j1 := b1.2.2
  let i2 := b2.2.1; let j2 := b2.2.2
  (i1 < i2 && i2 < j1 && j1 < j2) || (i2 < i1 && i1 < j2 && j2 < j1)

/-- Number of proposed brackets whose span crosses some gold bracket. -/
def crossingCount (bp bg : List Bracket) : Nat :=
  (bp.filter (fun b => bg.any (spansCross b))).length

/-- Modelled from the spec (missing `evalb.h`): the evaluator
accumulator's running totals. -/
structure EvalB where
  matched : Nat
  proposed_total : Nat
  gold_total : Nat
  perfect : Nat
  count : Nat
  crossing_sum : Nat
  zero_crossing : Nat
deriving Repr, DecidableEq

/-- A fresh evaluator accumulator: all totals zero. -/
def EvalB.init : EvalB :=
  ⟨0, 0, 0, 0, 0, 0, 0⟩

/-- Crossing count of a single tree pair. -/
def pairCrossing (proposed gold : Node) : Nat :=
  crossingCount (brackets proposed) (brackets gold)

/-- Modelled from the spec (missing `evalb.h`): `add_tree` accumulates
the bracket statistics of one proposed/gold tree pair. -/
def EvalB.add_tree (s : EvalB) (proposed gold : Node) : EvalB :=
  let bp := brackets proposed
  let bg := brackets gold
  let m := msInter bp bg
  let cross := crossingCount bp bg
  { matched := s.matched + m
    proposed_total := s.proposed_total + bp.length
    gold_total := s.gold_total + bg.length
    perfect := s.perfect + (if m = bp.length ∧ m = bg.length then 1 else 0)
    count := s.count + 1
    crossing_sum := s.crossing_sum + cross
    zero_crossing := s.zero_crossing + (if cross = 0 then 1 else 0) }

/-- Modelled from the spec: `labeled_precision = matched/proposed_total`
(rational division, which resolves to 0 on a zero denominator). -/
def EvalB.labeled_precision (s : EvalB) : ℚ :=
  (s.matched : ℚ) / (s.proposed_total : ℚ)

/-- Modelled from the spec: `labeled_recall = matched/gold_total`
(rational division, which resolves to 0 on a zero denominator). -/
def EvalB.labeled_recall (s : EvalB) : ℚ :=
  (s.matched : ℚ) / (s.gold_total : ℚ)

/-- Modelled from the spec: `labeled_f1` is the harmonic mean of
precision and recall, defined as 0 when both are 0. -/
def EvalB.labeled_f1 (s : EvalB) : ℚ :=
  let p := s.labeled_precision
  let r := s.labeled_recall
  if p + r = 0 then 0 else 2 * p * r / (p + r)

/-! ### The bracketed-tree reader (`ptb_reader`) -/

/-- Tokens of the bracketed notation: parentheses and symbols. -/
inductive Tok where
  | lparen
  | rparen
  | sym (s : String)
deriving Repr, DecidableEq

/-- A character that is structural in the bracketed notation. -/
def isParen (ch : Char) : Bool := ch = '(' || ch = ')'

/-- Emit the pending symbol run (if nonempty) as a symbol token. -/
def flushRun (acc : List Char) : List Tok :=
  if acc.isEmpty then [] else [.sym (String.mk acc)]

/-- Tokenizer worker: `acc` is the symbol run read so far. -/
def tokenizeAux (acc : List Char) : List Char → List Tok
  | [] => flushRun acc
  | ch :: rest =>
    if ch = '(' then flushRun acc ++ .lparen :: tokenizeAux [] rest
    else if ch = ')' then flushRun acc ++ .rparen :: tokenizeAux [] rest
    else if ch.isWhitespace then flushRun acc ++ tokenizeAux [] rest
    else tokenizeAux (acc ++ [ch]) rest

/-- Tokenize a character list: parentheses are tokens, maximal runs of
non-space non-paren characters are symbols, whitespace separates. -/
def tokenize (l : List Char) : List Tok :=
  tokenizeAux [] l

mutual
/-- Modelled from the spec (missing `io/ptb_reader.h`): parse one tree
from a token stream — a parenthesized category label followed by either
a child list or a terminal word.  Returns the tree and the remaining
tokens, or fails.  `fuel` bounds the recursion depth. -/
def parseTree (fuel : Nat) : List Tok → Option (Node × List Tok)
  | .lparen :: .sym cat :: .sym w :: .rparen :: rest =>
    some (.leaf cat (some w), rest)
  | .lparen :: .sym cat :: .rparen :: rest =>
    some (.leaf cat none, rest)
  | .lparen :: .sym cat :: .lparen :: more =>
    match fuel with
    | 0 => none
    | fuel + 1 =>
      match parseChildren fuel (.lparen :: more) with
      | some (cs, .rparen :: rest) =>
        if cs.isEmpty then none else some (.internal cat false cs, rest)
      | _ => none
  | _ => none

/-- Parse a maximal sequence of sibling trees. -/
def parseChildren (fuel : Nat) : List Tok → Option (List Node × List Tok)
  | toks@(.lparen :: _) =>
    match fuel with
    | 0 => none
    | fuel + 1 =>
      match parseTree fuel toks with
      | some (n, rest) =>
        match parseChildren fuel rest with
        | some (ns, rest') => some (n :: ns, rest')
        | none => none
      | none => none
  | toks => some ([], toks)
end

/-- Parse the whole token stream as a sequence of trees; fails with a
parse error (carrying the number of unconsumed tokens) on malformed
input. -/
def parseTrees (fuel : Nat) (toks : List Tok) : Except TreeError (List Node) :=
  match fuel with
  | 0 => .error (.parseError toks.length)
  | fuel + 1 =>
    match toks with
    | [] => .ok []
    | _ =>
      match parseTree toks.length toks with
      | some (n, rest) =>
        match parseTrees fuel rest with
        | .ok ns => .ok (n :: ns)
        | .error e => .error e
      | none => .error (.parseError toks.length)

/-- Binding `extract_trees` (line 232-236): parse a sequence of zero or
more trees from the input string. -/
def extract_trees (input : String) : Except TreeError (List Node) :=
  let toks := tokenize input.toList
  parseTrees (toks.length + 1) toks

/-- Binding `read_tree` (line 238-242): parse the input and return the
tree at index 0 of the sequence; an empty sequence makes the index
access fail out of range. -/
def read_tree (input : String) : Except TreeError Node :=
  match extract_trees input with
  | .error e => .error e
  | .ok [] => .error .indexError
  | .ok (t :: _) => .ok t

/-! ### Heap model of node objects

The binding exposes node objects with reference semantics; `add_child`
(binding line 115-119) appends a clone of the argument, so the child
stored in the parent is an independent deep copy.  The heap model makes
this observable: nodes live at addresses, internal nodes hold child
addresses, and cloning allocates a fresh copy. -/

/-- A heap-resident node: an internal node holds the addresses of its
children. -/
inductive HNode where
  | hleaf (category : String) (word : Option String)
  | hinternal (category : String) (temp : Bool) (children : List Nat)
deriving Repr, DecidableEq

/-- Addresses stored in a heap node. -/
def HNode.childAddrs : HNode → List Nat
  | .hleaf _ _ => []
  | .hinternal _ _ as => as

/-- The object heap: a partial map from addresses to heap nodes together
with the next fresh address. -/
structure Heap where
  f : Nat → Option HNode
  next : Nat

/-- Heap well-formedness: every allocated address and every stored child
address is below `next`. -/
def Heap.wf (h : Heap) : Prop :=
  ∀ a nd, h.f a = some nd → a < h.next ∧ ∀ b ∈ nd.childAddrs, b < h.next

/-- Overwrite the heap node at an address. -/
def Heap.update (h : Heap) (a : Nat) (nd : HNode) : Heap :=
  ⟨fun x => if x = a then some nd else h.f x, h.next⟩

mutual
/-- Allocate a fresh deep copy of a value tree in the heap (the heap
realization of `node::clone`), returning the new heap and the address of
the copy. -/
def allocNode : Heap → Node → Heap × Nat
  | h, .leaf c w =>
    (⟨fun a => if a = h.next then some (.hleaf c w) else h.f a, h.next + 1⟩, h.next)
  | h, .internal c t cs =>
    let p := allocList h cs
    (⟨fun a => if a = p.1.next then some (.hinternal c t p.2) else p.1.f a,
      p.1.next + 1⟩, p.1.next)

/-- Allocate fresh copies of a list of value trees, left to right. -/
def allocList : Heap → List Node → Heap × List Nat
  | h, [] => (h, [])
  | h, x :: xs =>
    let p := allocNode h x
    let q := allocList p.1 xs
    (q.1, p.2 :: q.2)
end

/-- Resolve each address of a list with the given resolver, all or
nothing. -/
def resolveWith (r : Nat → Option Node) : List Nat → Option (List Node)
  | [] => some []
  | a :: as =>
    match r a, resolveWith r as with
    | some n, some ns => some (n :: ns)
    | _, _ => none

/-- Read back the value tree stored at an address, with a fuel bound on
the depth. -/
def resolve (h : Heap) : Nat → Nat → Option Node
  | 0, _ => none
  | fuel + 1, a =>
    match h.f a with
    | some (.hleaf c w) => some (.leaf c w)
    | some (.hinternal c t as) => (resolveWith (resolve h fuel) as).map (.internal c t)
    | none => none

/-- Read back the value trees stored at a list of addresses. -/
def resolveList (h : Heap) (fuel : Nat) (as : List Nat) : Option (List Node) :=
  resolveWith (resolve h fuel) as

/-- Collect the addresses visited by a per-address reach function over a
list of addresses. -/
def reachWith (r : Nat → List Nat) : List Nat → List Nat
  | [] => []
  | a :: as => r a ++ reachWith r as

/-- The addresses the resolver looks up starting from an address, with
the same fuel discipline as `resolve`. -/
def reach (h : Heap) : Nat → Nat → List Nat
  | 0, _ => []
  | fuel + 1, a =>
    a :: (match h.f a with
          | some (.hinternal _ _ as) => reachWith (reach h fuel) as
          | _ => [])

/-- The addresses the resolver looks up from a list of addresses. -/
def reachList (h : Heap) (fuel : Nat) (as : List Nat) : List Nat :=
  reachWith (reach h fuel) as

mutual
/-- Depth of a value tree: the fuel needed to read back a fresh copy. -/
def depth : Node → Nat
  | .leaf _ _ => 1
  | .internal _ _ cs => depthList cs + 1

/-- Maximal depth over a list of value trees. -/
def depthList : List Node → Nat
  | [] => 0
  | x :: xs => max (depth x) (depthList xs)
end

/-- The binding's `add_child` (line 115-119) on the heap: resolve the
child object, allocate a fresh clone of it, and append the clone's
address to the parent's child list.  Fails if the parent is not an
internal node or the child does not resolve. -/
def addChild (h : Heap) (na ca : Nat) (fuel : Nat) : Option Heap :=
  match h.f na, resolve h fuel ca with
  | some (.hinternal c t as), some cv =>
    let p := allocNode h cv
    some (p.1.update na (.hinternal c t (as ++ [p.2])))
  | _, _ => none

/-- Mutate the node object at an address: overwrite its category label
in place (a representative mutation of the child object). -/
def mutateCategory (h : Heap) (a : Nat) (newcat : String) : Heap :=
  match h.f a with
  | some (.hleaf _ w) => h.update a (.hleaf newcat w)
  | some (.hinternal _ t as) => h.update a (.hinternal newcat t as)
  | none => h

/-- A concrete heap for the `add_child` scenario: the parent `(NP (NN
dog))` lives at addresses 1 and 0, the child-to-append `(VB runs)` at
address 2. -/
def wHeap : Heap :=
  ⟨fun a =>
    if a = 0 then some (.hleaf "NN" (some "dog"))
    else if a = 1 then some (.hinternal "NP" false [0])
    else if a = 2 then some (.hleaf "VB" (some "runs"))
    else none, 3⟩

/-- The heap after `add_child` appends a clone of the node at address 2
to the node at address 1: the clone lives at the fresh address 3. -/
def wHeapAfter : Heap :=
  (allocNode wHeap (.leaf "VB" (some "runs"))).1.update 1
    (.hinternal "NP" false [0, 3])

/-! ### Concrete trees used by the testable-property scenarios -/

/-- The proposed/gold tree `(S (NP (NN dog)) (VP (VB runs)))` of the
evaluator scenario: preterminals are leaf nodes carrying the word. -/
def exTree : Node :=
  .internal "S" false
    [.internal "NP" false [.leaf "NN" (some "dog")],
     .internal "VP" false [.leaf "VB" (some "runs")]]

/-- The accumulator after a single `add_tree` of the scenario pair on a
fresh accumulator. -/
def evalbScenario : EvalB :=
  EvalB.init.add_tree exTree exTree

mutual
/-- A subtree is free of empty material: it contains no leaf whose word
token is the empty sentinel and no internal node with zero children. -/
def noEmptyNodes : Node → Bool
  | .leaf _ w => !(leafWord w == emptySentinel)
  | .internal _ _ cs => !cs.isEmpty && noEmptyNodesList cs

/-- Every node of the list is free of empty material. -/
def noEmptyNodesList : List Node → Bool
  | [] => true
  | x :: xs => noEmptyNodes x && noEmptyNodesList xs
end

/-- The empty-removal scenario tree: an internal node whose sole child
is an empty-sentinel leaf, next to a normal preterminal. -/
def exEmptyTree : Node :=
  .internal "S" false
    [.internal "NP" false [.leaf "-NONE-" none], .leaf "VB" (some "runs")]

mutual
/-- A tree is already binary: every internal node has at most two
children. -/
def isBinary : Node → Bool
  | .leaf _ _ => true
  | .internal _ _ cs => decide (cs.length ≤ 2) && isBinaryList cs

/-- Every node of the list is already binary. -/
def isBinaryList : List Node → Bool
  | [] => true
  | x :: xs => isBinary x && isBinaryList xs
end

end Metapy

namespace Metapy

/-! ### Theorems -/

/-- C4: constructing an `InternalNode` from an empty child list fails
with a structural error and produces no node; construction from any
non-empty child list succeeds. -/
theorem internal_node_construction :
    (∀ cat, mkInternalNode cat [] = .error .structuralError) ∧
    (∀ cat (cs : List Node), cs ≠ [] → mkInternalNode cat cs = .ok (.internal cat false cs)) := by
  constructor
  · intro cat; rfl
  · intro cat cs h
    simp [mkInternalNode, h]

/-- Witness for C4: a singleton child list succeeds concretely. -/
theorem internal_node_construction_witness :
    mkInternalNode "NP" [.leaf "NN" (some "dog")] =
      .ok (.internal "NP" false [.leaf "NN" (some "dog")]) :=
  internal_node_construction.2 "NP" [.leaf "NN" (some "dog")] (by decide)

/-- C5: `word()` returns the stored token when the word is present, and
the defined "empty" sentinel when the word is absent. -/
theorem leaf_word_present_or_sentinel :
    (∀ w : String, leafWord (some w) = w) ∧ leafWord none = emptySentinel :=
  ⟨fun _ => rfl, rfl⟩

/-- C3: the derived metrics of every evaluator state: precision is
matched over proposed, recall is matched over gold, F1 is the harmonic
mean of the two, and a zero denominator resolves each metric to 0. -/
theorem evalb_metric_definitions (s : EvalB) :
    s.labeled_precision = (s.matched : ℚ) / (s.proposed_total : ℚ) ∧
    s.labeled_recall = (s.matched : ℚ) / (s.gold_total : ℚ) ∧
    (s.labeled_precision + s.labeled_recall ≠ 0 →
      s.labeled_f1 =
        2 * s.labeled_precision * s.labeled_recall /
          (s.labeled_precision + s.labeled_recall)) ∧
    (s.proposed_total = 0 → s.labeled_precision = 0) ∧
    (s.gold_total = 0 → s.labeled_recall = 0) ∧
    (s.labeled_precision = 0 ∧ s.labeled_recall = 0 → s.labeled_f1 = 0) := by
  refine ⟨rfl, rfl, ?_, ?_, ?_, ?_⟩
  · intro h
    simp only [EvalB.labeled_f1, if_neg h]
  · intro h
    simp [EvalB.labeled_precision, h]
  · intro h
    simp [EvalB.labeled_recall, h]
  · rintro ⟨hp, hr⟩
    simp [EvalB.labeled_f1, hp, hr]

/-- Witness for C3: the degenerate conclusions at the fresh accumulator
(all denominators zero) and the harmonic-mean conclusion at a state with
precision and recall one half. -/
theorem evalb_metric_definitions_witness :
    EvalB.init.labeled_precision = 0 ∧
    EvalB.init.labeled_recall = 0 ∧
    EvalB.init.labeled_f1 = 0 ∧
    (⟨1, 2, 2, 0, 1, 0, 0⟩ : EvalB).labeled_f1 =
      2 * (⟨1, 2, 2, 0, 1, 0, 0⟩ : EvalB).labeled_precision *
        (⟨1, 2, 2, 0, 1, 0, 0⟩ : EvalB).labeled_recall /
          ((⟨1, 2, 2, 0, 1, 0, 0⟩ : EvalB).labeled_precision +
            (⟨1, 2, 2, 0, 1, 0, 0⟩ : EvalB).labeled_recall) :=
  ⟨(evalb_metric_definitions EvalB.init).2.2.2.1 rfl,
   (evalb_metric_definitions EvalB.init).2.2.2.2.1 rfl,
   (evalb_metric_definitions EvalB.init).2.2.2.2.2
     ⟨(evalb_metric_definitions EvalB.init).2.2.2.1 rfl,
      (evalb_metric_definitions EvalB.init).2.2.2.2.1 rfl⟩,
   (evalb_metric_definitions ⟨1, 2, 2, 0, 1, 0, 0⟩).2.2.1
     (by norm_num [EvalB.labeled_precision, EvalB.labeled_recall])⟩

/-- C2: the scenario with the proposed tree `(S (NP (NN dog)) (VP (VB
runs)))` against an identical gold tree, after a single `add_tree` on a
fresh accumulator: matched, proposed and gold totals agree and are
nonzero, the pair is perfect, all three labeled metrics are 1, and the
pair has zero crossing brackets. -/
theorem evalb_identical_scenario :
    evalbScenario.matched = evalbScenario.proposed_total ∧
    evalbScenario.proposed_total = evalbScenario.gold_total ∧
    0 < evalbScenario.matched ∧
    evalbScenario.perfect = 1 ∧
    evalbScenario.labeled_precision = 1 ∧
    evalbScenario.labeled_recall = 1 ∧
    evalbScenario.labeled_f1 = 1 ∧
    pairCrossing exTree exTree = 0 ∧
    evalbScenario.zero_crossing = 1 := by
  have hm : evalbScenario.matched = 3 := rfl
  have hp : evalbScenario.proposed_total = 3 := rfl
  have hg : evalbScenario.gold_total = 3 := rfl
  have hprec : evalbScenario.labeled_precision = 1 := by
    rw [EvalB.labeled_precision, hm, hp]; norm_num
  have hrec : evalbScenario.labeled_recall = 1 := by
    rw [EvalB.labeled_recall, hm, hg]; norm_num
  refine ⟨rfl, rfl, by decide, rfl, hprec, hrec, ?_, rfl, rfl⟩
  rw [EvalB.labeled_f1, hprec, hrec]
  norm_num

/-- C8: the unary chain `(A (B (C word)))` collapses to `(A (C word))`
(topmost label kept, intermediate `B` discarded), and the single
leaf-parent node `(C word)` is unchanged. -/
theorem unary_chain_scenario :
    unaryChainRemover
        (.internal "A" false [.internal "B" false [.leaf "C" (some "word")]]) =
      .internal "A" false [.leaf "C" (some "word")] ∧
    unaryChainRemover (.leaf "C" (some "word")) = .leaf "C" (some "word") :=
  ⟨rfl, rfl⟩

/-- C10: `read_tree` returns the first tree of the parsed sequence when
the input holds at least one tree; on an input with zero trees (the
empty string) it fails with an index error while `extract_trees`
returns the empty sequence. -/
theorem read_tree_first_or_index_error :
    (∀ s t ts, extract_trees s = .ok (t :: ts) → read_tree s = .ok t) ∧
    extract_trees "" = .ok [] ∧
    read_tree "" = .error .indexError := by
  refine ⟨?_, rfl, rfl⟩
  intro s t ts h
  simp [read_tree, h]

/-- Witness for C10: a one-tree input concretely. -/
theorem read_tree_first_or_index_error_witness :
    read_tree "(A dog)" = .ok (.leaf "A" (some "dog")) :=
  read_tree_first_or_index_error.1 "(A dog)" (.leaf "A" (some "dog")) [] rfl

/-- Mutual induction over nodes and child lists. -/
theorem node_mutual_induction (P : Node → Prop) (Q : List Node → Prop)
    (hleaf : ∀ c w, P (.leaf c w))
    (hint : ∀ c t cs, Q cs → P (.internal c t cs))
    (hnil : Q [])
    (hcons : ∀ x xs, P x → Q xs → Q (x :: xs)) :
    (∀ t, P t) ∧ (∀ l, Q l) := by
  have hP : ∀ t, P t := by
    intro t
    induction t using Node.rec with
    | leaf c w => exact hleaf c w
    | internal c t cs ih => exact hint c t cs ih
    | nil => exact hnil
    | cons x xs ihx ihxs => exact hcons x xs ihx ihxs
  refine ⟨hP, ?_⟩
  intro l
  induction l with
  | nil => exact hnil
  | cons x xs ih => exact hcons x xs (hP x) ih

/-- `binarizeList` is the elementwise map of `binarize`. -/
theorem binarizeList_eq_map (l : List Node) : binarizeList l = l.map binarize := by
  induction l with
  | nil => rfl
  | cons x xs ih => simp [binarizeList, ih]

/-- The binarizer commutes with the cascade constructor. -/
theorem binarize_cascade (c : String) :
    ∀ (ys : List Node) (x : Node),
      binarize (cascade c x ys) = cascade c (binarize x) (binarizeList ys) := by
  intro ys
  induction ys with
  | nil => intro x; simp [cascade, binarizeList]
  | cons y ys ih =>
    intro x
    cases ys with
    | nil => simp [cascade, binarize, binarizeList]
    | cons z rest => simp [cascade, binarize, binarizeList, ih]

/-- A list fixed by an elementwise map is fixed pointwise. -/
theorem map_fixed_pointwise {f : Node → Node} :
    ∀ (l : List Node), l.map f = l → ∀ x ∈ l, f x = x := by
  intro l
  induction l with
  | nil => intro _ x hx; cases hx
  | cons a as ih =>
    intro h x hx
    rw [List.map_cons, List.cons.injEq] at h
    rcases List.mem_cons.1 hx with rfl | hx'
    · exact h.1
    · exact ih h.2 x hx'

/-- C7: the binarizer is idempotent — applying it twice equals applying
it once — and it leaves an already-binary tree unchanged. -/
theorem binarize_idempotent :
    (∀ t : Node, binarize (binarize t) = binarize t) ∧
    (∀ t : Node, isBinary t = true → binarize t = t) := by
  have part1 := node_mutual_induction
    (fun t => binarize (binarize t) = binarize t)
    (fun l => binarizeList (binarizeList l) = binarizeList l)
    (fun _ _ => rfl)
    (by
      intro c t cs ih
      have hparts : ∀ x ∈ binarizeList cs, binarize x = x := by
        apply map_fixed_pointwise
        rw [← binarizeList_eq_map]
        exact ih
      cases hl : binarizeList cs with
      | nil => simp [binarize, binarizeList, hl]
      | cons x l1 =>
        cases l1 with
        | nil =>
          have hx : binarize x = x := hparts x (by rw [hl]; exact List.mem_singleton_self x)
          simp [binarize, binarizeList, hl, hx]
        | cons y l2 =>
          cases l2 with
          | nil =>
            have hx : binarize x = x := hparts x (by rw [hl]; simp)
            have hy : binarize y = y := hparts y (by rw [hl]; simp)
            simp [binarize, binarizeList, hl, hx, hy]
          | cons z rest =>
            rw [hl] at ih
            simp only [binarizeList, List.cons.injEq] at ih
            simp [binarize, binarizeList, hl, binarize_cascade, ih.1, ih.2.1,
              ih.2.2.1, ih.2.2.2])
    rfl
    (by
      intro x xs hx hxs
      simp [binarizeList, hx, hxs])
  have part2 := node_mutual_induction
    (fun t => isBinary t = true → binarize t = t)
    (fun l => isBinaryList l = true → binarizeList l = l)
    (fun _ _ _ => rfl)
    (by
      intro c t cs ih h
      simp only [isBinary, Bool.and_eq_true, decide_eq_true_eq] at h
      have hcs : binarizeList cs = cs := ih h.2
      rcases cs with _ | ⟨x, _ | ⟨y, _ | ⟨z, rest⟩⟩⟩
      · simp [binarize, binarizeList]
      · simp [binarize, hcs]
      · simp [binarize, hcs]
      · exfalso
        simp at h)
    (fun _ => rfl)
    (by
      intro x xs hx hxs h
      simp only [isBinaryList, Bool.and_eq_true] at h
      simp [binarizeList, hx h.1, hxs h.2])
  exact ⟨part1.1, part2.1⟩

/-- Witness for C7: the scenario tree is already binary and fixed by the
binarizer. -/
theorem binarize_idempotent_witness :
    binarize (binarize exTree) = binarize exTree ∧
    isBinary exTree = true ∧ binarize exTree = exTree :=
  ⟨binarize_idempotent.1 exTree, by decide, binarize_idempotent.2 exTree (by decide)⟩

/-- The binarizer preserves the temporary flag of the root. -/
theorem binarize_is_temporary (t : Node) :
    (binarize t).is_temporary = t.is_temporary := by
  cases t with
  | leaf c w => rfl
  | internal c tt cs =>
    rcases hl : binarizeList cs with _ | ⟨x, _ | ⟨y, _ | ⟨z, rest⟩⟩⟩ <;>
      simp [binarize, hl, Node.is_temporary]

/-- A temporary-free tree has a non-temporary root. -/
theorem noTemp_root {t : Node} (h : noTemp t = true) : t.is_temporary = false := by
  cases t with
  | leaf c w => rfl
  | internal c tt cs =>
    simp only [noTemp, Bool.and_eq_true, Bool.not_eq_true'] at h
    simpa [Node.is_temporary] using h.1

/-- Binarizing a temporary-free child list yields nodes with
non-temporary roots. -/
theorem binarizeList_roots_nontemp :
    ∀ (l : List Node), noTempList l = true →
      ∀ z ∈ binarizeList l, z.is_temporary = false := by
  intro l
  induction l with
  | nil => intro _ z hz; cases hz
  | cons x xs ih =>
    intro h z hz
    simp only [noTempList, Bool.and_eq_true] at h
    rcases List.mem_cons.1 hz with rfl | hz'
    · rw [binarize_is_temporary]
      exact noTemp_root h.1
    · exact ih h.2 z hz'

/-- Splicing a child list whose head has a non-temporary root keeps the
head in place. -/
theorem debinList_cons_nontemp {z : Node} (zs : List Node)
    (h : z.is_temporary = false) :
    debinList (z :: zs) = debinarize z :: debinList zs := by
  cases z with
  | leaf c w => simp [debinList, debinarize]
  | internal c tt cs =>
    simp only [Node.is_temporary] at h
    subst h
    simp [debinList]

/-- On a list of nodes with non-temporary roots the splicer acts
elementwise. -/
theorem debinList_nontemp_map :
    ∀ (zs : List Node), (∀ z ∈ zs, z.is_temporary = false) →
      debinList zs = zs.map debinarize := by
  intro zs
  induction zs with
  | nil => intro _; rfl
  | cons z zs ih =>
    intro h
    rw [debinList_cons_nontemp zs (h z (List.mem_cons_self z zs)),
      List.map_cons, ih (fun w hw => h w (List.mem_cons_of_mem z hw))]

/-- Splicing a cascade recovers its constituent nodes in order. -/
theorem debinList_cascade (c : String) :
    ∀ (ys : List Node) (x : Node), x.is_temporary = false →
      (∀ y ∈ ys, y.is_temporary = false) →
      debinList [cascade c x ys] = debinarize x :: ys.map debinarize := by
  intro ys
  induction ys with
  | nil =>
    intro x hx _
    rw [cascade, debinList_cons_nontemp [] hx]
    rfl
  | cons y ys ih =>
    intro x hx hall
    cases ys with
    | nil =>
      rw [cascade]
      show debinList [.internal (tempLabel c) true [x, y]] = _
      rw [debinList]
      rw [debinList_cons_nontemp [y] hx,
        debinList_cons_nontemp [] (hall y (List.mem_cons_self y []))]
      rfl
    | cons z rest =>
      rw [cascade]
      show debinList [.internal (tempLabel c) true [x, cascade c y (z :: rest)]] = _
      rw [debinList]
      rw [debinList_cons_nontemp [cascade c y (z :: rest)] hx]
      rw [ih y (hall y (List.mem_cons_self y _))
        (fun w hw => hall w (List.mem_cons_of_mem y hw))]
      simp [debinList]

/-- C1: for every tree with no temporary nodes, debinarizing the
binarized tree reconstructs the original tree. -/
theorem binarize_debinarize_roundtrip (t : Node) (h : noTemp t = true) :
    debinarize (binarize t) = t := by
  have parts := node_mutual_induction
    (fun t => noTemp t = true → debinarize (binarize t) = t)
    (fun l => noTempList l = true → debinList (binarizeList l) = l)
    (fun _ _ _ => rfl)
    (by
      intro c tt cs ih h
      simp only [noTemp, Bool.and_eq_true, Bool.not_eq_true'] at h
      have hQ : debinList (binarizeList cs) = cs := ih h.2
      have hel : ∀ w ∈ binarizeList cs, w.is_temporary = false :=
        binarizeList_roots_nontemp cs h.2
      rcases hl : binarizeList cs with _ | ⟨x, _ | ⟨y, _ | ⟨z, rest⟩⟩⟩ <;>
        rw [hl] at hQ hel
      · simp [binarize, hl, debinarize, hQ]
      · simp only [binarize, hl, debinarize]
        rw [hQ]
      · simp only [binarize, hl, debinarize]
        rw [hQ]
      · simp only [binarize, hl, debinarize]
        have hx : x.is_temporary = false := hel x (by simp)
        have hy : y.is_temporary = false := hel y (by simp)
        have hzrest : ∀ w ∈ z :: rest, w.is_temporary = false :=
          fun w hw => hel w (by simp [hw])
        rw [debinList_cons_nontemp _ hx, debinList_cascade c (z :: rest) y hy hzrest]
        rw [debinList_nontemp_map (x :: y :: z :: rest) hel] at hQ
        simp only [List.map_cons] at hQ ⊢
        rw [hQ])
    (fun _ => rfl)
    (by
      intro x xs hx hxs h
      simp only [noTempList, Bool.and_eq_true] at h
      show debinList (binarize x :: binarizeList xs) = x :: xs
      rw [debinList_cons_nontemp _ (by rw [binarize_is_temporary]; exact noTemp_root h.1)]
      rw [hx h.1, hxs h.2])
  exact parts.1 t h

/-- Witness for C1: a four-child temporary-free tree round-trips through
the binary cascade. -/
theorem binarize_debinarize_roundtrip_witness :
    noTemp (.internal "S" false
      [.leaf "A" (some "a"), .leaf "B" (some "b"),
       .leaf "C" (some "c"), .leaf "D" (some "d")]) = true ∧
    debinarize (binarize (.internal "S" false
      [.leaf "A" (some "a"), .leaf "B" (some "b"),
       .leaf "C" (some "c"), .leaf "D" (some "d")])) =
      .internal "S" false
        [.leaf "A" (some "a"), .leaf "B" (some "b"),
         .leaf "C" (some "c"), .leaf "D" (some "d")] :=
  ⟨by decide, binarize_debinarize_roundtrip _ (by decide)⟩

/-- C6: every tree produced by the empty remover contains no
empty-sentinel leaf and no internal node with zero children; and on the
scenario tree, the internal node whose sole child was an empty leaf is
removed, so the parent's child count decreases by one. -/
theorem empty_remover_clean :
    (∀ (t r : Node), emptyRemover t = some r → noEmptyNodes r = true) ∧
    emptyRemover exEmptyTree = some (.internal "S" false [.leaf "VB" (some "runs")]) ∧
    Node.num_children (.internal "S" false [.leaf "VB" (some "runs")]) + 1 =
      Node.num_children exEmptyTree := by
  refine ⟨?_, rfl, rfl⟩
  have parts := node_mutual_induction
    (fun t => ∀ r, emptyRemover t = some r → noEmptyNodes r = true)
    (fun l => noEmptyNodesList (emptyRemoverList l) = true)
    (by
      intro c w r h
      simp only [emptyRemover] at h
      split at h
      · exact Option.noConfusion h
      · obtain rfl : (Node.leaf c w) = r := Option.some.inj h
        simp only [noEmptyNodes, Bool.not_eq_true']
        simpa using by assumption)
    (by
      intro c t cs ih r h
      simp only [emptyRemover] at h
      rcases hl : emptyRemoverList cs with _ | ⟨a, l⟩ <;> rw [hl] at h
      · exact Option.noConfusion h
      · obtain rfl : Node.internal c t (a :: l) = r := Option.some.inj h
        simp only [noEmptyNodes, Bool.and_eq_true, Bool.not_eq_true']
        refine ⟨rfl, ?_⟩
        rw [← hl]
        exact ih)
    rfl
    (by
      intro x xs hx hxs
      simp only [emptyRemoverList]
      cases he : emptyRemover x with
      | none => exact hxs
      | some y =>
        simp only [noEmptyNodesList, Bool.and_eq_true]
        exact ⟨hx y he, hxs⟩)
  exact fun t r h => parts.1 t r h

/-- Witness for C6: the scenario result is clean. -/
theorem empty_remover_clean_witness :
    noEmptyNodes (.internal "S" false [.leaf "VB" (some "runs")]) = true :=
  empty_remover_clean.1 exEmptyTree _ (by decide)

/-- Successful resolution is monotone in the fuel. -/
theorem resolve_mono (h : Heap) :
    ∀ fuel fuel', fuel ≤ fuel' →
      ∀ a v, resolve h fuel a = some v → resolve h fuel' a = some v := by
  intro fuel
  induction fuel with
  | zero =>
    intro fuel' _ a v hv
    exact absurd hv (by simp [resolve])
  | succ fuel ih =>
    intro fuel' hle a v hv
    obtain ⟨f2, rfl⟩ : ∃ k, fuel' = k + 1 := ⟨fuel' - 1, by omega⟩
    have hle2 : fuel ≤ f2 := by omega
    rw [resolve] at hv ⊢
    cases hf : h.f a with
    | none => rw [hf] at hv; simp at hv
    | some nd =>
      rw [hf] at hv
      cases nd with
      | hleaf c w => exact hv
      | hinternal c t as =>
        simp only [Option.map_eq_some'] at hv ⊢
        obtain ⟨ns, hns, hveq⟩ := hv
        refine ⟨ns, ?_, hveq⟩
        clear hveq hf
        induction as generalizing ns with
        | nil => simpa [resolveWith] using hns
        | cons b bs ihb =>
          rw [resolveWith] at hns ⊢
          cases hb : resolve h fuel b with
          | none => rw [hb] at hns; exact absurd hns (by simp)
          | some n =>
            rw [hb] at hns
            cases hbs : resolveWith (resolve h fuel) bs with
            | none => rw [hbs] at hns; exact absurd hns (by simp)
            | some xs =>
              rw [hbs] at hns
              rw [ih f2 hle2 b n hb, ihb xs hbs]
              exact hns

/-- List form of fuel monotonicity. -/
theorem resolveList_mono (h : Heap) {fuel fuel' : Nat} (hle : fuel ≤ fuel') :
    ∀ as ns, resolveList h fuel as = some ns → resolveList h fuel' as = some ns := by
  intro as
  induction as with
  | nil => intro ns hns; simpa [resolveList, resolveWith] using hns
  | cons b bs ihb =>
    intro ns hns
    rw [resolveList, resolveWith] at hns ⊢
    cases hb : resolve h fuel b with
    | none => rw [hb] at hns; exact absurd hns (by simp)
    | some n =>
      rw [hb] at hns
      cases hbs : resolveWith (resolve h fuel) bs with
      | none => rw [hbs] at hns; exact absurd hns (by simp)
      | some xs =>
        rw [hbs] at hns
        rw [resolve_mono h fuel fuel' hle b n hb]
        have := ihb xs hbs
        rw [resolveList] at this
        rw [this]
        exact hns

/-- A successful resolution pins the reach set: more fuel visits the
same addresses. -/
theorem reach_stable (h : Heap) :
    ∀ fuel fuel', fuel ≤ fuel' →
      ∀ a v, resolve h fuel a = some v → reach h fuel' a = reach h fuel a := by
  intro fuel
  induction fuel with
  | zero =>
    intro _ _ a v hv
    exact absurd hv (by simp [resolve])
  | succ fuel ih =>
    intro fuel' hle a v hv
    obtain ⟨f2, rfl⟩ : ∃ k, fuel' = k + 1 := ⟨fuel' - 1, by omega⟩
    have hle2 : fuel ≤ f2 := by omega
    rw [resolve] at hv
    rw [reach, reach]
    cases hf : h.f a with
    | none => rw [hf] at hv
    | some nd =>
      rw [hf] at hv
      cases nd with
      | hleaf c w => rfl
      | hinternal c t as =>
        simp only [Option.map_eq_some'] at hv
        obtain ⟨ns, hns, hveq⟩ := hv
        simp only [List.cons.injEq, true_and]
        clear hveq hf
        induction as generalizing ns with
        | nil => rfl
        | cons b bs ihb =>
          rw [resolveWith] at hns
          cases hb : resolve h fuel b with
          | none => rw [hb] at hns; exact absurd hns (by simp)
          | some n =>
            rw [hb] at hns
            cases hbs : resolveWith (resolve h fuel) bs with
            | none => rw [hbs] at hns; exact absurd hns (by simp)
            | some xs =>
              rw [reachWith, reachWith, ih f2 hle2 b n hb, ihb xs hbs]

/-- Membership in the reach of a list of addresses. -/
theorem reachWith_mem {r : Nat → List Nat} {y : Nat} :
    ∀ {as : List Nat}, y ∈ reachWith r as ↔ ∃ a ∈ as, y ∈ r a := by
  intro as
  induction as with
  | nil => simp [reachWith]
  | cons a as ih => simp [reachWith, List.mem_append, ih]

/-- Updating the heap at an address outside the reach set changes
neither resolution nor reach. -/
theorem update_frame (h : Heap) (b : Nat) (nd : HNode) :
    ∀ fuel,
      (∀ x, b ∉ reach h fuel x →
        resolve (h.update b nd) fuel x = resolve h fuel x ∧
        reach (h.update b nd) fuel x = reach h fuel x) ∧
      (∀ as, (∀ a ∈ as, b ∉ reach h fuel a) →
        resolveWith (resolve (h.update b nd) fuel) as = resolveWith (resolve h fuel) as ∧
        reachWith (reach (h.update b nd) fuel) as = reachWith (reach h fuel) as) := by
  intro fuel
  induction fuel with
  | zero =>
    constructor
    · intro x _
      exact ⟨rfl, rfl⟩
    · intro as hcond
      induction as with
      | nil => exact ⟨rfl, rfl⟩
      | cons a as iha =>
        obtain ⟨ih1, ih2⟩ := iha (fun a2 ha2 => hcond a2 (List.mem_cons_of_mem a ha2))
        refine ⟨rfl, ?_⟩
        rw [reachWith, reachWith, ih2]
        simp [reach]
  | succ fuel ih =>
    have hnode : ∀ x, b ∉ reach h (fuel + 1) x →
        resolve (h.update b nd) (fuel + 1) x = resolve h (fuel + 1) x ∧
        reach (h.update b nd) (fuel + 1) x = reach h (fuel + 1) x := by
      intro x hbx
      rw [reach] at hbx
      have hbne : b ≠ x := fun he => hbx (he ▸ List.mem_cons_self x _)
      have hlook : (h.update b nd).f x = h.f x := by
        simp only [Heap.update]
        rw [if_neg (Ne.symm hbne)]
      rw [resolve, resolve, reach, reach, hlook]
      cases hf : h.f x with
      | none => exact ⟨rfl, rfl⟩
      | some nd2 =>
        cases nd2 with
        | hleaf c w => exact ⟨rfl, rfl⟩
        | hinternal c t as =>
          rw [hf] at hbx
          have hball : ∀ a ∈ as, b ∉ reach h fuel a := by
            intro a ha hmem
            exact hbx (List.mem_cons_of_mem x (reachWith_mem.2 ⟨a, ha, hmem⟩))
          obtain ⟨hres, hreach⟩ := (ih.2) as hball
          exact ⟨by simp only [hres], by simp only [hreach]⟩
    refine ⟨hnode, ?_⟩
    intro as hall
    induction as with
    | nil => exact ⟨rfl, rfl⟩
    | cons a as iha =>
      obtain ⟨ih1, ih2⟩ := iha (fun a' ha' => hall a' (List.mem_cons_of_mem a ha'))
      obtain ⟨hn1, hn2⟩ := hnode a (hall a (List.mem_cons_self a as))
      constructor
      · rw [resolveWith, resolveWith, hn1, ih1]
      · rw [reachWith, reachWith, hn2, ih2]

/-- A heap that agrees with a well-formed heap below its frontier
resolves and reaches identically there. -/
theorem ext_frame (h h2 : Heap) (hwf : Heap.wf h)
    (hagree : ∀ x, x < h.next → h2.f x = h.f x) :
    ∀ fuel,
      (∀ a, a < h.next →
        resolve h2 fuel a = resolve h fuel a ∧ reach h2 fuel a = reach h fuel a) ∧
      (∀ as, (∀ a ∈ as, a < h.next) →
        resolveWith (resolve h2 fuel) as = resolveWith (resolve h fuel) as ∧
        reachWith (reach h2 fuel) as = reachWith (reach h fuel) as) := by
  intro fuel
  induction fuel with
  | zero =>
    constructor
    · intro a _
      exact ⟨rfl, rfl⟩
    · intro as hcond
      induction as with
      | nil => exact ⟨rfl, rfl⟩
      | cons a as iha =>
        obtain ⟨ih1, ih2⟩ := iha (fun a2 ha2 => hcond a2 (List.mem_cons_of_mem a ha2))
        refine ⟨rfl, ?_⟩
        rw [reachWith, reachWith, ih2]
        simp [reach]
  | succ fuel ih =>
    have hnode : ∀ a, a < h.next →
        resolve h2 (fuel + 1) a = resolve h (fuel + 1) a ∧
        reach h2 (fuel + 1) a = reach h (fuel + 1) a := by
      intro a ha
      rw [resolve, resolve, reach, reach, hagree a ha]
      cases hf : h.f a with
      | none => exact ⟨rfl, rfl⟩
      | some nd2 =>
        cases nd2 with
        | hleaf c w => exact ⟨rfl, rfl⟩
        | hinternal c t as =>
          have hch : ∀ bb ∈ as, bb < h.next := by
            intro bb hbb
            exact (hwf a _ hf).2 bb hbb
          obtain ⟨hres, hreach⟩ := (ih.2) as hch
          exact ⟨by simp only [hres], by simp only [hreach]⟩
    refine ⟨hnode, ?_⟩
    intro as hall
    induction as with
    | nil => exact ⟨rfl, rfl⟩
    | cons a as iha =>
      obtain ⟨ih1, ih2⟩ := iha (fun a' ha' => hall a' (List.mem_cons_of_mem a ha'))
      obtain ⟨hn1, hn2⟩ := hnode a (hall a (List.mem_cons_self a as))
      constructor
      · rw [resolveWith, resolveWith, hn1, ih1]
      · rw [reachWith, reachWith, hn2, ih2]

/-- In a heap whose nodes at or above `lo` only point at or above `lo`,
the reach set from an address at or above `lo` stays at or above `lo`. -/
theorem reach_fresh (h : Heap) (lo : Nat)
    (hfp : ∀ x nd, lo ≤ x → h.f x = some nd → ∀ b ∈ nd.childAddrs, lo ≤ b) :
    ∀ fuel,
      (∀ a, lo ≤ a → ∀ y ∈ reach h fuel a, lo ≤ y) ∧
      (∀ as, (∀ a ∈ as, lo ≤ a) → ∀ y ∈ reachWith (reach h fuel) as, lo ≤ y) := by
  intro fuel
  induction fuel with
  | zero =>
    constructor
    · intro a _ y hy
      simp [reach] at hy
    · intro as _ y hy
      obtain ⟨a, _, hmem⟩ := reachWith_mem.1 hy
      simp [reach] at hmem
  | succ fuel ih =>
    have hnode : ∀ a, lo ≤ a → ∀ y ∈ reach h (fuel + 1) a, lo ≤ y := by
      intro a ha y hy
      rw [reach] at hy
      rcases List.mem_cons.1 hy with rfl | hy2
      · exact ha
      · cases hf : h.f a with
        | none =>
          rw [hf] at hy2
          simp at hy2
        | some nd2 =>
          rw [hf] at hy2
          cases nd2 with
          | hleaf c w => simp at hy2
          | hinternal c t as =>
            have hch : ∀ b ∈ as, lo ≤ b := hfp a _ ha hf
            exact ih.2 as hch y hy2
    refine ⟨hnode, ?_⟩
    intro as hall y hy
    obtain ⟨a, ha, hmem⟩ := reachWith_mem.1 hy
    exact hnode a (hall a ha) y hmem

/-- Allocation specification: allocation extends the heap only with
fresh addresses, preserves existing entries and well-formedness, keeps
fresh nodes pointing at fresh addresses, and the fresh copy reads back
as the allocated value. -/
theorem alloc_spec :
    (∀ (v : Node) (h : Heap), Heap.wf h →
      h.next ≤ (allocNode h v).2 ∧
      (allocNode h v).2 < (allocNode h v).1.next ∧
      h.next < (allocNode h v).1.next ∧
      (∀ x, x < h.next ∨ (allocNode h v).1.next ≤ x → (allocNode h v).1.f x = h.f x) ∧
      Heap.wf (allocNode h v).1 ∧
      (∀ x nd, h.next ≤ x → (allocNode h v).1.f x = some nd →
        ∀ b ∈ nd.childAddrs, h.next ≤ b ∧ b < (allocNode h v).1.next) ∧
      resolve (allocNode h v).1 (depth v) (allocNode h v).2 = some v) ∧
    (∀ (cs : List Node) (h : Heap), Heap.wf h →
      h.next ≤ (allocList h cs).1.next ∧
      (∀ r ∈ (allocList h cs).2, h.next ≤ r ∧ r < (allocList h cs).1.next) ∧
      (∀ x, x < h.next ∨ (allocList h cs).1.next ≤ x → (allocList h cs).1.f x = h.f x) ∧
      Heap.wf (allocList h cs).1 ∧
      (∀ x nd, h.next ≤ x → (allocList h cs).1.f x = some nd →
        ∀ b ∈ nd.childAddrs, h.next ≤ b ∧ b < (allocList h cs).1.next) ∧
      resolveWith (resolve (allocList h cs).1 (depthList cs)) (allocList h cs).2 = some cs) :=
  node_mutual_induction
    (fun v => ∀ h : Heap, Heap.wf h →
      h.next ≤ (allocNode h v).2 ∧
      (allocNode h v).2 < (allocNode h v).1.next ∧
      h.next < (allocNode h v).1.next ∧
      (∀ x, x < h.next ∨ (allocNode h v).1.next ≤ x → (allocNode h v).1.f x = h.f x) ∧
      Heap.wf (allocNode h v).1 ∧
      (∀ x nd, h.next ≤ x → (allocNode h v).1.f x = some nd →
        ∀ b ∈ nd.childAddrs, h.next ≤ b ∧ b < (allocNode h v).1.next) ∧
      resolve (allocNode h v).1 (depth v) (allocNode h v).2 = some v)
    (fun cs => ∀ h : Heap, Heap.wf h →
      h.next ≤ (allocList h cs).1.next ∧
      (∀ r ∈ (allocList h cs).2, h.next ≤ r ∧ r < (allocList h cs).1.next) ∧
      (∀ x, x < h.next ∨ (allocList h cs).1.next ≤ x → (allocList h cs).1.f x = h.f x) ∧
      Heap.wf (allocList h cs).1 ∧
      (∀ x nd, h.next ≤ x → (allocList h cs).1.f x = some nd →
        ∀ b ∈ nd.childAddrs, h.next ≤ b ∧ b < (allocList h cs).1.next) ∧
      resolveWith (resolve (allocList h cs).1 (depthList cs)) (allocList h cs).2 = some cs)
    (by
      intro c w h hwf
      simp only [allocNode]
      refine ⟨le_refl _, Nat.lt_succ_self _, Nat.lt_succ_self _, ?_, ?_, ?_, ?_⟩
      · intro x hx
        have hne : x ≠ h.next := by omega
        simp [hne]
      · intro a nd hand
        by_cases ha : a = h.next
        · subst ha
          simp at hand
          subst hand
          exact ⟨Nat.lt_succ_self _, by simp [HNode.childAddrs]⟩
        · simp [ha] at hand
          obtain ⟨h1, h2⟩ := hwf a nd hand
          exact ⟨Nat.lt_succ_of_lt h1, fun b hb => Nat.lt_succ_of_lt (h2 b hb)⟩
      · intro x nd hx hand
        by_cases ha : x = h.next
        · subst ha
          simp at hand
          subst hand
          simp [HNode.childAddrs]
        · simp [ha] at hand
          exact absurd (hwf x nd hand).1 (by omega)
      · simp [resolve, depth])
    (by
      intro c t cs ih h hwf
      obtain ⟨hA1, hA2, hA3, hA4, hA5, hA6⟩ := ih h hwf
      simp only [allocNode]
      refine ⟨hA1, Nat.lt_succ_self _, by omega, ?_, ?_, ?_, ?_⟩
      · intro x hx
        have hne : x ≠ (allocList h cs).1.next := by omega
        simp only [hne, if_false]
        exact hA3 x (by omega)
      · intro a nd hand
        by_cases ha : a = (allocList h cs).1.next
        · subst ha
          simp at hand
          subst hand
          refine ⟨Nat.lt_succ_self _, ?_⟩
          intro b hb
          have := hA2 b hb
          simp [HNode.childAddrs] at hb ⊢
          have := hA2 b (by simpa using hb)
          omega
        · simp only [ha, if_false] at hand
          obtain ⟨h1, h2⟩ := hA4 a nd hand
          exact ⟨Nat.lt_succ_of_lt h1, fun b hb => Nat.lt_succ_of_lt (h2 b hb)⟩
      · intro x nd hx hand
        by_cases ha : x = (allocList h cs).1.next
        · subst ha
          simp at hand
          subst hand
          intro b hb
          have := hA2 b (by simpa [HNode.childAddrs] using hb)
          omega
        · simp only [ha, if_false] at hand
          intro b hb
          have := hA5 x nd hx hand b hb
          omega
      · have hagree : ∀ y, y < (allocList h cs).1.next →
            (Heap.mk (fun a => if a = (allocList h cs).1.next
              then some (HNode.hinternal c t (allocList h cs).2)
              else (allocList h cs).1.f a) ((allocList h cs).1.next + 1)).f y =
            (allocList h cs).1.f y := by
          intro y hy
          have hne : y ≠ (allocList h cs).1.next := by omega
          simp [hne]
        have hext := (ext_frame (allocList h cs).1 _ hA4 hagree (depthList cs)).2
          (allocList h cs).2 (fun r hr => (hA2 r hr).2)
        rw [depth, resolve]
        simp [hext.1, hA6])
    (by
      intro h hwf
      simp only [allocList]
      refine ⟨le_refl _, ?_, ?_, hwf, ?_, rfl⟩
      · intro r hr
        cases hr
      · intro x _
        trivial
      · intro x nd hx hand
        exact absurd (hwf x nd hand).1 (by omega))
    (by
      intro x xs ihx ihxs h hwf
      obtain ⟨hp1, hp2, hp3, hp4, hp5, hp6, hp7⟩ := ihx h hwf
      obtain ⟨hq1, hq2, hq3, hq4, hq5, hq6⟩ := ihxs (allocNode h x).1 hp5
      simp only [allocList]
      refine ⟨by omega, ?_, ?_, hq4, ?_, ?_⟩
      · intro r hr
        rcases List.mem_cons.1 hr with rfl | hr2
        · refine ⟨hp1, ?_⟩
          have := hq1
          omega
        · have := hq2 r hr2
          constructor <;> omega
      · intro y hy
        have h1 : (allocList (allocNode h x).1 xs).1.f y = (allocNode h x).1.f y := by
          apply hq3
          rcases hy with hy | hy
          · left; omega
          · right; exact hy
        rw [h1]
        apply hp4
        rcases hy with hy | hy
        · left; exact hy
        · right; omega
      · intro y nd hy hand
        by_cases hcase : y < (allocNode h x).1.next
        · have h1 : (allocList (allocNode h x).1 xs).1.f y = (allocNode h x).1.f y :=
            hq3 y (Or.inl hcase)
          rw [h1] at hand
          intro b hb
          have := hp6 y nd hy hand b hb
          constructor <;> omega
        · intro b hb
          have := hq5 y nd (by omega) hand b hb
          constructor <;> omega
      · have hagree : ∀ y, y < (allocNode h x).1.next →
            (allocList (allocNode h x).1 xs).1.f y = (allocNode h x).1.f y := by
          intro y hy
          exact hq3 y (Or.inl hy)
        have hresx : resolve (allocList (allocNode h x).1 xs).1 (depth x) (allocNode h x).2 =
            some x := by
          rw [(ext_frame (allocNode h x).1 _ hp5 hagree (depth x)).1 (allocNode h x).2 hp2 |>.1]
          exact hp7
        have hresx2 : resolve (allocList (allocNode h x).1 xs).1 (depthList (x :: xs))
            (allocNode h x).2 = some x := by
          apply resolve_mono _ (depth x) _ _ _ _ hresx
          rw [depthList]
          omega
        have hresxs : resolveList (allocList (allocNode h x).1 xs).1 (depthList (x :: xs))
            (allocList (allocNode h x).1 xs).2 = some xs := by
          apply resolveList_mono _ _ _ _ hq6
          rw [depthList]
          omega
        rw [resolveWith, hresx2]
        rw [resolveList] at hresxs
        rw [hresxs])

/-- A successfully resolving address lies below the frontier of a
well-formed heap. -/
theorem resolve_some_lt {h : Heap} (hwf : Heap.wf h) {fuel a : Nat} {v : Node}
    (hv : resolve h fuel a = some v) : a < h.next := by
  cases fuel with
  | zero => exact absurd hv (by simp [resolve])
  | succ fuel =>
    rw [resolve] at hv
    cases hf : h.f a with
    | none => rw [hf] at hv; exact absurd hv (by simp)
    | some nd => exact (hwf a nd hf).1

/-- Resolution distributes over list append. -/
theorem resolveWith_append {r : Nat → Option Node} :
    ∀ {as bs : List Nat} {xs ys : List Node},
      resolveWith r as = some xs → resolveWith r bs = some ys →
      resolveWith r (as ++ bs) = some (xs ++ ys) := by
  intro as
  induction as with
  | nil =>
    intro bs xs ys h1 h2
    rw [resolveWith] at h1
    obtain rfl := (Option.some.inj h1)
    simpa using h2
  | cons a as ih =>
    intro bs xs ys h1 h2
    rw [resolveWith] at h1
    cases ha : r a with
    | none => rw [ha] at h1; exact absurd h1 (by simp)
    | some n =>
      rw [ha] at h1
      cases has : resolveWith r as with
      | none => rw [has] at h1; exact absurd h1 (by simp)
      | some ns =>
        rw [has] at h1
        obtain rfl := (Option.some.inj h1).symm
        rw [List.cons_append, resolveWith, ha, ih has h2]
        rfl

/-- Each member of a successfully resolved list resolves. -/
theorem resolveWith_mem_some {r : Nat → Option Node} :
    ∀ {as : List Nat} {ns : List Node}, resolveWith r as = some ns →
      ∀ a ∈ as, ∃ v, r a = some v := by
  intro as
  induction as with
  | nil => intro ns _ a ha; cases ha
  | cons b bs ih =>
    intro ns h1 a ha
    rw [resolveWith] at h1
    cases hb : r b with
    | none => rw [hb] at h1; exact absurd h1 (by simp)
    | some n =>
      rw [hb] at h1
      cases hbs : resolveWith r bs with
      | none => rw [hbs] at h1; exact absurd h1 (by simp)
      | some xs =>
        rcases List.mem_cons.1 ha with rfl | ha2
        · exact ⟨n, hb⟩
        · exact ih hbs a ha2

/-- Reach distributes over list append. -/
theorem reachWith_append {r : Nat → List Nat} :
    ∀ (as bs : List Nat),
      reachWith r (as ++ bs) = reachWith r as ++ reachWith r bs := by
  intro as bs
  induction as with
  | nil => simp [reachWith]
  | cons a as ih => simp [reachWith, ih]

/-- Reach over a list only depends on the per-address reach of its
members. -/
theorem reachWith_congr {r1 r2 : Nat → List Nat} :
    ∀ {as : List Nat}, (∀ a ∈ as, r1 a = r2 a) →
      reachWith r1 as = reachWith r2 as := by
  intro as
  induction as with
  | nil => intro _; rfl
  | cons a as ih =>
    intro h
    rw [reachWith, reachWith, h a (List.mem_cons_self a as),
      ih (fun b hb => h b (List.mem_cons_of_mem a hb))]

/-- C9: `add_child` appends an independent clone: the parent gains
exactly one child, the new last child reads back as the value of the
argument, the previously existing children are unchanged in value and
order, and a subsequent mutation of the argument object does not change
the parent's children. -/
theorem add_child_correct
    (h : Heap) (na ca fuel : Nat) (c : String) (t : Bool) (vs : List Node)
    (cv : Node) (h2 : Heap)
    (hwf : Heap.wf h)
    (hna : resolve h fuel na = some (.internal c t vs))
    (hca : resolve h fuel ca = some cv)
    (hadd : addChild h na ca fuel = some h2)
    (hsep : na ∉ (reach h fuel na).tail) :
    (resolve h2 (fuel + depth cv) na = some (.internal c t (vs ++ [cv])) ∧
     (vs ++ [cv]).length = vs.length + 1 ∧
     (vs ++ [cv]).getLast? = some cv ∧
     (vs ++ [cv]).take vs.length = vs) ∧
    (∀ newcat, ca ∉ reach h fuel na →
      resolve (mutateCategory h2 ca newcat) (fuel + depth cv) na =
        some (.internal c t (vs ++ [cv]))) := by
  obtain ⟨fz, rfl⟩ : ∃ k, fuel = k + 1 := by
    cases fuel with
    | zero => exact absurd hna (by simp [resolve])
    | succ k => exact ⟨k, rfl⟩
  have hca_lt : ca < h.next := resolve_some_lt hwf hca
  rw [resolve] at hna
  cases hfna : h.f na with
  | none => rw [hfna] at hna; simp at hna
  | some nd =>
  rw [hfna] at hna
  cases nd with
  | hleaf c0 w0 => simp at hna
  | hinternal c0 t0 as =>
  simp only [Option.map_eq_some'] at hna
  obtain ⟨ns, hns, heq⟩ := hna
  injection heq with e1 e2 e3
  subst e1
  subst e2
  subst e3
  have hna_lt : na < h.next := (hwf na _ hfna).1
  have has_lt : ∀ b ∈ as, b < h.next := fun b hb => (hwf na _ hfna).2 b hb
  rw [addChild, hfna, hca] at hadd
  obtain rfl : h2 = (allocNode h cv).1.update na
      (.hinternal c0 t0 (as ++ [(allocNode h cv).2])) := (Option.some.inj hadd).symm
  obtain ⟨ha1, ha2, ha3, ha4, ha5, ha6, ha7⟩ := alloc_spec.1 cv h hwf
  set F := fz + depth cv with hF
  have hdep1 : 1 ≤ depth cv := by cases cv <;> simp [depth]
  have hfzF : fz ≤ F := by omega
  have hfr : resolveWith (resolve h F) as = some ns := by
    have := resolveList_mono h hfzF as ns (by rw [resolveList]; exact hns)
    rw [resolveList] at this
    exact this
  have hagree1 : ∀ x, x < h.next → (allocNode h cv).1.f x = h.f x :=
    fun x hx => ha4 x (Or.inl hx)
  have hextf := ext_frame h (allocNode h cv).1 hwf hagree1 F
  have hfr1 : resolveWith (resolve (allocNode h cv).1 F) as = some ns := by
    rw [(hextf.2 as has_lt).1]
    exact hfr
  have hmem_res : ∀ a ∈ as, ∃ v, resolve h fz a = some v := resolveWith_mem_some hns
  have hstab : ∀ a ∈ as, reach h F a = reach h fz a := by
    intro a ha
    obtain ⟨v, hv⟩ := hmem_res a ha
    exact reach_stable h fz F hfzF a v hv
  have hsep2 : na ∉ reachWith (reach h fz) as := by
    have hre : reach h (fz + 1) na = na :: reachWith (reach h fz) as := by
      rw [reach, hfna]
    rw [hre] at hsep
    simpa using hsep
  have hsep1 : ∀ a ∈ as, na ∉ reach (allocNode h cv).1 F a := by
    intro a ha hmem
    rw [(hextf.1 a (has_lt a ha)).2, hstab a ha] at hmem
    exact hsep2 (reachWith_mem.2 ⟨a, ha, hmem⟩)
  have hupd := update_frame (allocNode h cv).1 na
    (.hinternal c0 t0 (as ++ [(allocNode h cv).2])) F
  have hfr2 : resolveWith (resolve ((allocNode h cv).1.update na
      (.hinternal c0 t0 (as ++ [(allocNode h cv).2]))) F) as = some ns := by
    rw [(hupd.2 as hsep1).1]
    exact hfr1
  have hfp1 : ∀ x nd, h.next ≤ x → (allocNode h cv).1.f x = some nd →
      ∀ b ∈ nd.childAddrs, h.next ≤ b :=
    fun x nd hx hf b hb => (ha6 x nd hx hf b hb).1
  have hfreshreach := reach_fresh (allocNode h cv).1 h.next hfp1 F
  have hnomem_new : na ∉ reach (allocNode h cv).1 F (allocNode h cv).2 := by
    intro hmem
    have := hfreshreach.1 (allocNode h cv).2 ha1 na hmem
    omega
  have hfrcv : resolve ((allocNode h cv).1.update na
      (.hinternal c0 t0 (as ++ [(allocNode h cv).2]))) F (allocNode h cv).2 = some cv := by
    rw [(hupd.1 (allocNode h cv).2 hnomem_new).1]
    exact resolve_mono _ (depth cv) F (by omega) _ _ ha7
  have hlook2 : ((allocNode h cv).1.update na
      (.hinternal c0 t0 (as ++ [(allocNode h cv).2]))).f na =
      some (.hinternal c0 t0 (as ++ [(allocNode h cv).2])) := by
    simp [Heap.update]
  have happ : resolveWith (resolve ((allocNode h cv).1.update na
      (.hinternal c0 t0 (as ++ [(allocNode h cv).2]))) F) (as ++ [(allocNode h cv).2]) =
      some (ns ++ [cv]) := by
    apply resolveWith_append hfr2
    rw [resolveWith, hfrcv, resolveWith]
  have hres2 : resolve ((allocNode h cv).1.update na
      (.hinternal c0 t0 (as ++ [(allocNode h cv).2]))) (F + 1) na =
      some (.internal c0 t0 (ns ++ [cv])) := by
    rw [resolve, hlook2]
    have happ2 : Option.map (Node.internal c0 t0)
        (resolveWith (resolve ((allocNode h cv).1.update na
          (.hinternal c0 t0 (as ++ [(allocNode h cv).2]))) F)
          (as ++ [(allocNode h cv).2])) = some (.internal c0 t0 (ns ++ [cv])) := by
      rw [happ]
      rfl
    exact happ2
  have hFshift : fz + 1 + depth cv = F + 1 := by omega
  refine ⟨⟨?_, by simp, by simp, by simp⟩, ?_⟩
  · rw [hFshift]
    exact hres2
  · intro newcat hca2
    have hcane : ca ≠ na := by
      intro he
      apply hca2
      rw [he, reach]
      exact List.mem_cons_self _ _
    have hnotin : ca ∉ reach ((allocNode h cv).1.update na
        (.hinternal c0 t0 (as ++ [(allocNode h cv).2]))) (F + 1) na := by
      intro hmem
      rw [reach, hlook2] at hmem
      rcases List.mem_cons.1 hmem with he | hmem2
      · exact hcane he
      · have hmem2b : ca ∈ reachWith (reach ((allocNode h cv).1.update na
            (.hinternal c0 t0 (as ++ [(allocNode h cv).2]))) F)
            (as ++ [(allocNode h cv).2]) := hmem2
        rw [reachWith_append] at hmem2b
        rcases List.mem_append.1 hmem2b with hmem3 | hmem4
        · have heq3 : reachWith (reach ((allocNode h cv).1.update na
              (.hinternal c0 t0 (as ++ [(allocNode h cv).2]))) F) as =
              reachWith (reach h fz) as := by
            rw [(hupd.2 as hsep1).2, (hextf.2 as has_lt).2]
            exact reachWith_congr hstab
          rw [heq3] at hmem3
          apply hca2
          rw [reach, hfna]
          exact List.mem_cons_of_mem na hmem3
        · have hmem5 : ca ∈ reach ((allocNode h cv).1.update na
              (.hinternal c0 t0 (as ++ [(allocNode h cv).2]))) F (allocNode h cv).2 := by
            simpa [reachWith] using hmem4
          have hfp2 : ∀ x nd, h.next ≤ x →
              ((allocNode h cv).1.update na
                (.hinternal c0 t0 (as ++ [(allocNode h cv).2]))).f x = some nd →
              ∀ b ∈ nd.childAddrs, h.next ≤ b := by
            intro x nd hx hf b hb
            have hxne : x ≠ na := by omega
            simp only [Heap.update, hxne, if_false] at hf
            exact hfp1 x nd hx hf b hb
          have := (reach_fresh ((allocNode h cv).1.update na
            (.hinternal c0 t0 (as ++ [(allocNode h cv).2]))) h.next hfp2 F).1
            (allocNode h cv).2 ha1 ca hmem5
          omega
    rw [hFshift, mutateCategory]
    cases hfca : ((allocNode h cv).1.update na
        (.hinternal c0 t0 (as ++ [(allocNode h cv).2]))).f ca with
    | none => exact hres2
    | some nd2 =>
      cases nd2 with
      | hleaf cc ww =>
        exact (((update_frame ((allocNode h cv).1.update na
          (.hinternal c0 t0 (as ++ [(allocNode h cv).2]))) ca
          (.hleaf newcat ww) (F + 1)).1 na hnotin).1).trans hres2
      | hinternal cc tt aas =>
        exact (((update_frame ((allocNode h cv).1.update na
          (.hinternal c0 t0 (as ++ [(allocNode h cv).2]))) ca
          (.hinternal newcat tt aas) (F + 1)).1 na hnotin).1).trans hres2

/-- Witness for C9: appending a clone of `(VB runs)` to `(NP (NN dog))`
on a concrete heap, then mutating the argument object's category,
leaves the parent's children as the two expected values. -/
theorem add_child_correct_witness :
    resolve wHeapAfter (3 + depth (.leaf "VB" (some "runs"))) 1 =
      some (.internal "NP" false [.leaf "NN" (some "dog"), .leaf "VB" (some "runs")]) ∧
    resolve (mutateCategory wHeapAfter 2 "X") (3 + depth (.leaf "VB" (some "runs"))) 1 =
      some (.internal "NP" false [.leaf "NN" (some "dog"), .leaf "VB" (some "runs")]) := by
  have hwf : Heap.wf wHeap := by
    intro a nd hand
    simp only [wHeap] at hand
    split_ifs at hand with h0 h1 h2
    · obtain rfl := Option.some.inj hand
      subst h0
      exact ⟨by decide, by simp [HNode.childAddrs]⟩
    · obtain rfl := Option.some.inj hand
      subst h1
      refine ⟨by decide, ?_⟩
      intro b hb
      simp [HNode.childAddrs] at hb
      subst hb
      decide
    · obtain rfl := Option.some.inj hand
      subst h2
      exact ⟨by decide, by simp [HNode.childAddrs]⟩
  have H := add_child_correct wHeap 1 2 3 "NP" false [.leaf "NN" (some "dog")]
    (.leaf "VB" (some "runs")) wHeapAfter hwf rfl rfl rfl (by decide)
  exact ⟨H.1.1, H.2 "X" (by decide)⟩

end Metapy
